import Mathlib

/-!
# WTF::DoublyLinkedList

A shallow embedding of `weex_core/Source/include/wtf/DoublyLinkedList.h`, the intrusive
doubly-linked list of WTF, and theorems about its operations.

Modelling decisions.

* A `T*` is a `Ptr = Option Node`: `none` is the null pointer `0`, `some a` is the address `a`
  of an element. Elements are identified by their address, a natural number.
* The two slots `m_prev` / `m_next` that `DoublyLinkedListNode<T>` reaches through
  `static_cast<T*>(this)` live in a `Heap`: one function per slot, from addresses to pointers.
  `setPrev` / `setNext` are single-point updates of those functions.
* A `DoublyLinkedList` is the pair of private members `m_head`, `m_tail`. A `State` is one list
  together with the heap its elements live in.
* Every member function is translated statement by statement; the writes are applied in the
  order of the source, so aliasing between `node`, `m_head` and `m_tail` behaves as in C++.
* `ASSERT` compiles to nothing in a release build; the state transformers `push`, `append`,
  `remove`, `removeHead`, `appendList` are the release semantics. The debug build, in which a
  failed `ASSERT` halts the program, is modelled by `pushDebug`, `appendDebug`, `removeDebug`,
  `removeHeadDebug`, `appendListDebug`: the same statements with every `ASSERT` of the source
  at its place, returning `none` when one fails.
* `size()` is a loop that need not terminate on a cyclic chain; it is modelled with fuel and
  returns `none` when the fuel runs out. Its counter is a `size_t`; a terminating run visits
  pairwise distinct live objects, fewer than the range of `size_t`, so the counter is a `Nat`.
-/

namespace WTF

/-- Address of an element of type `T`. -/
abbrev Node := Nat

/-- A value of type `T*`; `none` is the null pointer. -/
abbrev Ptr := Option Node

/-- The `m_prev` and `m_next` slots of every element. -/
structure Heap where
  m_prev : Node → Ptr
  m_next : Node → Ptr

/-- The private members of `DoublyLinkedList<T>`. -/
structure DoublyLinkedList where
  m_head : Ptr
  m_tail : Ptr
deriving DecidableEq

/-- One list object together with the slots of all elements. -/
structure State where
  heap : Heap
  list : DoublyLinkedList

/-- Source `DoublyLinkedListNode<T>::setPrev`: `static_cast<T*>(this)->m_prev = prev`. -/
def Heap.setPrev (h : Heap) (self : Node) (prev : Ptr) : Heap :=
  { h with m_prev := fun x => if x = self then prev else h.m_prev x }

/-- Source `DoublyLinkedListNode<T>::setNext`: `static_cast<T*>(this)->m_next = next`. -/
def Heap.setNext (h : Heap) (self : Node) (next : Ptr) : Heap :=
  { h with m_next := fun x => if x = self then next else h.m_next x }

/-- Source `DoublyLinkedListNode<T>::prev`. -/
def Heap.prev (h : Heap) (self : Node) : Ptr := h.m_prev self

/-- Source `DoublyLinkedListNode<T>::next`. -/
def Heap.next (h : Heap) (self : Node) : Ptr := h.m_next self

/-- Source `DoublyLinkedListNode<T>::DoublyLinkedListNode()`: `setPrev(0); setNext(0);`. -/
def Heap.construct (h : Heap) (self : Node) : Heap :=
  (h.setPrev self none).setNext self none

/-- Source `DoublyLinkedList<T>::DoublyLinkedList()`: `m_head(0), m_tail(0)`. -/
def DoublyLinkedList.new : DoublyLinkedList := ⟨none, none⟩

/-- Source `DoublyLinkedList<T>::isEmpty`: `return !m_head;`. -/
def DoublyLinkedList.isEmpty (l : DoublyLinkedList) : Bool := l.m_head.isNone

/-- Source `DoublyLinkedList<T>::head`. -/
def DoublyLinkedList.head (l : DoublyLinkedList) : Ptr := l.m_head

/-- Source `DoublyLinkedList<T>::tail`. -/
def DoublyLinkedList.tail (l : DoublyLinkedList) : Ptr := l.m_tail

/-- Source `DoublyLinkedList<T>::clear` on the list object alone: `m_head = 0; m_tail = 0;`. -/
def DoublyLinkedList.clear (_l : DoublyLinkedList) : DoublyLinkedList := ⟨none, none⟩

/-- The loop of `size()`: `for (node = start; node; node = node->next()) ++size;`, with the
counter `acc` and a bound `fuel` on the number of iterations. -/
def sizeLoop (h : Heap) : Nat → Ptr → Nat → Option Nat
  | _, none, acc => some acc
  | 0, some _, _ => none
  | fuel + 1, some node, acc => sizeLoop h fuel (h.next node) (acc + 1)

/-- Source `DoublyLinkedList<T>::size`, `none` when `fuel` iterations do not reach the end. -/
def size (fuel : Nat) (s : State) : Option Nat :=
  sizeLoop s.heap fuel s.list.m_head 0

/-- Source `DoublyLinkedList<T>::isEmpty` on a state. -/
def isEmpty (s : State) : Bool := s.list.isEmpty

/-- Source `DoublyLinkedList<T>::head` on a state. -/
def head (s : State) : Ptr := s.list.head

/-- Source `DoublyLinkedList<T>::tail` on a state. -/
def tail (s : State) : Ptr := s.list.tail

/-- Source `DoublyLinkedList<T>::clear`: the heap is not written. -/
def clear (s : State) : State := { s with list := s.list.clear }

/-- Source `DoublyLinkedList<T>::push(T* node)`. -/
def push (s : State) (node : Node) : State :=
  match s.list.m_head with
  | none =>
    -- m_head = node; m_tail = node; node->setPrev(0); node->setNext(0);
    { heap := (s.heap.setPrev node none).setNext node none
      list := { m_head := some node, m_tail := some node } }
  | some hd =>
    -- m_head->setPrev(node); node->setNext(m_head); node->setPrev(0); m_head = node;
    { heap := ((s.heap.setPrev hd (some node)).setNext node (some hd)).setPrev node none
      list := { s.list with m_head := some node } }

/-- Source `DoublyLinkedList<T>::append(T* node)`. -/
def append (s : State) (node : Node) : State :=
  match s.list.m_tail with
  | none =>
    -- m_head = node; m_tail = node; node->setPrev(0); node->setNext(0);
    { heap := (s.heap.setPrev node none).setNext node none
      list := { m_head := some node, m_tail := some node } }
  | some tl =>
    -- m_tail->setNext(node); node->setPrev(m_tail); node->setNext(0); m_tail = node;
    { heap := ((s.heap.setNext tl (some node)).setPrev node (some tl)).setNext node none
      list := { s.list with m_tail := some node } }

/-- First `if` of `remove`: unlink `node` from its predecessor, or move `m_head`. -/
def removeFront (s : State) (node : Node) : State :=
  match s.heap.prev node with
  | some p => { s with heap := s.heap.setNext p (s.heap.next node) }
  | none => { s with list := { s.list with m_head := s.heap.next node } }

/-- Second `if` of `remove`: unlink `node` from its successor, or move `m_tail`. -/
def removeBack (s : State) (node : Node) : State :=
  match s.heap.next node with
  | some nx => { s with heap := s.heap.setPrev nx (s.heap.prev node) }
  | none => { s with list := { s.list with m_tail := s.heap.prev node } }

/-- Source `DoublyLinkedList<T>::remove(T* node)`: the two `if` statements in sequence. -/
def remove (s : State) (node : Node) : State :=
  removeBack (removeFront s node) node

/-- Source `DoublyLinkedList<T>::removeHead`: the returned pointer and the state afterwards. -/
def removeHead (s : State) : Ptr × State :=
  match head s with
  | some node => (some node, remove s node)
  | none => (none, s)

/-- Source `DoublyLinkedList<T>::append(DoublyLinkedList<T>& other)`: `s` holds `this` and
the heap, `other` is a second list object over the same heap, different from `this`. Returns
the state of `this` and the heap, and the new value of `other`. The result is `none` when the
call dereferences a null `m_tail` (`m_tail->setNext(otherHead)` with `m_head` set and `m_tail`
null). -/
def appendList (s : State) (other : DoublyLinkedList) : Option (State × DoublyLinkedList) :=
  match other.head with
  | none => some (s, other)
  | some otherHead =>
    match head s with
    | none =>
      -- m_head = other.head(); m_tail = other.tail(); other.clear();
      some ({ s with list := { m_head := other.head, m_tail := other.tail } }, other.clear)
    | some _ =>
      -- otherHead = other.head(); otherTail = other.tail(); other.clear();
      -- m_tail->setNext(otherHead); otherHead->setPrev(m_tail); m_tail = otherTail;
      let otherTail := other.tail
      match s.list.m_tail with
      | none => none
      | some tl =>
        some ({ heap := (s.heap.setNext tl (some otherHead)).setPrev otherHead (some tl)
                list := { s.list with m_tail := otherTail } }, other.clear)

/-! ## Debug build: the same functions with their assertions -/

/-- Source `ASSERT(cond)` in a debug build: execution goes on when `cond` holds and halts
(`none`) when it does not. -/
def ASSERT (cond : Bool) : Option Unit := if cond then some () else none

/-- Source `DoublyLinkedList<T>::push(T* node)` with its assertions. -/
def pushDebug (s : State) (node : Node) : Option State :=
  match s.list.m_head with
  | none => do
    ASSERT s.list.m_tail.isNone -- ASSERT(!m_tail);
    pure { heap := (s.heap.setPrev node none).setNext node none
           list := { m_head := some node, m_tail := some node } }
  | some hd => do
    ASSERT s.list.m_tail.isSome -- ASSERT(m_tail);
    pure { heap := ((s.heap.setPrev hd (some node)).setNext node (some hd)).setPrev node none
           list := { s.list with m_head := some node } }

/-- Source `DoublyLinkedList<T>::append(T* node)` with its assertions. -/
def appendDebug (s : State) (node : Node) : Option State :=
  match s.list.m_tail with
  | none => do
    ASSERT s.list.m_head.isNone -- ASSERT(!m_head);
    pure { heap := (s.heap.setPrev node none).setNext node none
           list := { m_head := some node, m_tail := some node } }
  | some tl => do
    ASSERT s.list.m_head.isSome -- ASSERT(m_head);
    pure { heap := ((s.heap.setNext tl (some node)).setPrev node (some tl)).setNext node none
           list := { s.list with m_tail := some node } }

/-- First `if` of `remove` with its assertions. -/
def removeFrontDebug (s : State) (node : Node) : Option State :=
  match s.heap.prev node with
  | some p => do
    ASSERT (decide (some node ≠ s.list.m_head)) -- ASSERT(node != m_head);
    pure { s with heap := s.heap.setNext p (s.heap.next node) }
  | none => do
    ASSERT (decide (some node = s.list.m_head)) -- ASSERT(node == m_head);
    pure { s with list := { s.list with m_head := s.heap.next node } }

/-- Second `if` of `remove` with its assertions. -/
def removeBackDebug (s : State) (node : Node) : Option State :=
  match s.heap.next node with
  | some nx => do
    ASSERT (decide (some node ≠ s.list.m_tail)) -- ASSERT(node != m_tail);
    pure { s with heap := s.heap.setPrev nx (s.heap.prev node) }
  | none => do
    ASSERT (decide (some node = s.list.m_tail)) -- ASSERT(node == m_tail);
    pure { s with list := { s.list with m_tail := s.heap.prev node } }

/-- Source `DoublyLinkedList<T>::remove(T* node)` with its assertions. -/
def removeDebug (s : State) (node : Node) : Option State := do
  let s1 ← removeFrontDebug s node
  removeBackDebug s1 node

/-- Source `DoublyLinkedList<T>::removeHead` over `remove` with its assertions. -/
def removeHeadDebug (s : State) : Option (Ptr × State) :=
  match head s with
  | some node => do
    let s1 ← removeDebug s node
    pure (some node, s1)
  | none => pure (none, s)

/-- Source `DoublyLinkedList<T>::append(DoublyLinkedList<T>& other)` with its assertions. A
null `m_tail` is stopped by `ASSERT(tail())` before it is dereferenced. -/
def appendListDebug (s : State) (other : DoublyLinkedList) :
    Option (State × DoublyLinkedList) :=
  match other.head with
  | none => some (s, other)
  | some otherHead =>
    match head s with
    | none =>
      some ({ s with list := { m_head := other.head, m_tail := other.tail } }, other.clear)
    | some _ => do
      ASSERT (tail s).isSome -- ASSERT(tail());
      ASSERT other.head.isSome -- ASSERT(other.head());
      let otherTail := other.tail
      match s.list.m_tail with
      | none => none
      | some tl => do
        ASSERT (s.heap.next tl).isNone -- ASSERT(!m_tail->next());
        let h1 := s.heap.setNext tl (some otherHead)
        ASSERT (h1.prev otherHead).isNone -- ASSERT(!otherHead->prev());
        pure ({ heap := h1.setPrev otherHead (some tl)
                list := { s.list with m_tail := otherTail } }, other.clear)

/-! ## Specification vocabulary -/

/-- The doubly-linked segment predicate: in heap `h` the nodes `xs` are chained in this order,
the first one having `p` in its prev slot and the last one `q` in its next slot; each other
prev slot holds the predecessor and each other next slot the successor. -/
def Seg (h : Heap) : Ptr → List Node → Ptr → Prop
  | _, [], _ => True
  | p, [x], q => h.prev x = p ∧ h.next x = q
  | p, x :: y :: ys, q => h.prev x = p ∧ h.next x = some y ∧ Seg h (some x) (y :: ys) q

/-- The list object `l` over heap `h` is well-formed with node sequence `xs = x1..xn`: the
nodes are pairwise distinct, `m_head` is `x1` and `m_tail` is `xn` (both null when `n = 0`),
`next(xi) = x(i+1)` and `prev(x(i+1)) = xi` for consecutive nodes, the prev slot of the head
and the next slot of the tail are null. -/
def IsList (h : Heap) (l : DoublyLinkedList) (xs : List Node) : Prop :=
  xs.Nodup ∧ l.m_head = xs.head? ∧ l.m_tail = xs.getLast? ∧
  xs.Chain' (fun x y => h.next x = some y ∧ h.prev y = some x) ∧
  (∀ x ∈ xs.head?, h.prev x = none) ∧ (∀ x ∈ xs.getLast?, h.next x = none)

/-- The same well-formedness, with the links stated by the segment predicate. -/
def ListSeg (h : Heap) (l : DoublyLinkedList) (xs : List Node) : Prop :=
  xs.Nodup ∧ l.m_head = xs.head? ∧ l.m_tail = xs.getLast? ∧ Seg h none xs none

/-- The list object `l` over heap `h` is well-formed: it has some node sequence. -/
def WellFormed (h : Heap) (l : DoublyLinkedList) : Prop := ∃ xs, IsList h l xs

/-- The pointer reached from `p` after `k` steps along next slots (null stays null). -/
def walk (h : Heap) : Nat → Ptr → Ptr
  | 0, p => p
  | _ + 1, none => none
  | k + 1, some x => walk h k (h.next x)

/-- Node `n` is reached from the head of the list by following next slots. -/
def Member (s : State) (n : Node) : Prop := ∃ k, walk s.heap k s.list.m_head = some n

/-- The states reachable from a newly constructed list, over any heap, by `push` / `append` of
a node that is not currently in the list and `remove` of a node that is. -/
inductive Reachable : State → Prop
  | init (h : Heap) : Reachable ⟨h, DoublyLinkedList.new⟩
  | push (s : State) (n : Node) : Reachable s → ¬ Member s n → Reachable (push s n)
  | append (s : State) (n : Node) : Reachable s → ¬ Member s n → Reachable (append s n)
  | remove (s : State) (n : Node) : Reachable s → Member s n → Reachable (remove s n)

/-- Call `removeHead` `k` times; the returned pointers in call order and the final state. -/
def removeHeads : Nat → State → List Ptr × State
  | 0, s => ([], s)
  | k + 1, s => ((removeHead s).1 :: (removeHeads k (removeHead s).2).1,
                 (removeHeads k (removeHead s).2).2)

/-- The mirror image of a state: head and tail swapped, every prev slot swapped with the
next slot of the same node. -/
def mirror (s : State) : State :=
  { heap := { m_prev := s.heap.m_next, m_next := s.heap.m_prev }
    list := { m_head := s.list.m_tail, m_tail := s.list.m_head } }

/-- The first node of `xs` as a pointer, `q` when `xs` is empty. -/
def firstOr : List Node → Ptr → Ptr
  | [], q => q
  | x :: _, _ => some x

/-- The last node of `xs` as a pointer, `p` when `xs` is empty. -/
def lastOr : List Node → Ptr → Ptr
  | [], p => p
  | x :: xs, _ => lastOr xs (some x)

/-- Example heap: nodes 1, 2 are chained in this order, and so are nodes 3, 4; every other
slot is null. -/
def exHeap : Heap :=
  { m_prev := fun x => if x = 2 then some 1 else if x = 4 then some 3 else none
    m_next := fun x => if x = 1 then some 2 else if x = 3 then some 4 else none }

/-- Example list `A = [1, 2]` over `exHeap`. -/
def exA : State := { heap := exHeap, list := { m_head := some 1, m_tail := some 2 } }

/-- Example list `B = [3, 4]` over `exHeap`. -/
def exB : DoublyLinkedList := { m_head := some 3, m_tail := some 4 }

/-- Example list `[1]` over the heap whose slots are all null. -/
def exOne : State :=
  { heap := { m_prev := fun _ => none, m_next := fun _ => none }
    list := { m_head := some 1, m_tail := some 1 } }

/-- The pointer reached from `p` after `k` steps along prev slots (null stays null). -/
def walkBack (h : Heap) : Nat → Ptr → Ptr
  | 0, p => p
  | _ + 1, none => none
  | k + 1, some x => walkBack h k (h.prev x)

/-- Example heap: nodes 1, 2 are chained in this order, and so are nodes 5, 6, 7; every other
slot is null. -/
def exMid : Heap :=
  { m_prev := fun x => if x = 2 then some 1 else if x = 6 then some 5 else
      if x = 7 then some 6 else none
    m_next := fun x => if x = 1 then some 2 else if x = 5 then some 6 else
      if x = 6 then some 7 else none }

/-- Example list `L = [1, 2]` over `exMid`. -/
def exL : State := { heap := exMid, list := { m_head := some 1, m_tail := some 2 } }

/-- Example list `C = [5, 6, 7]` over `exMid`. -/
def exC : DoublyLinkedList := { m_head := some 5, m_tail := some 7 }

/-- The postcondition of `push(node)` called in state `s`. Empty list (head null): afterwards
head and tail are `node` and both slots of `node` are null. Non-empty list with head `hd`:
afterwards the prev slot of `hd` is `node`, the next slot of `node` is `hd`, the prev slot of
`node` is null, head is `node` and tail is unchanged. In both cases the slots of every element
other than `node` and the old head are unchanged. -/
def PushPost (s : State) (node : Node) : Prop :=
  (head s = none →
    head (push s node) = some node ∧ tail (push s node) = some node ∧
    (push s node).heap.prev node = none ∧ (push s node).heap.next node = none) ∧
  (∀ hd, head s = some hd →
    (push s node).heap.prev hd = some node ∧ (push s node).heap.next node = some hd ∧
    (push s node).heap.prev node = none ∧
    head (push s node) = some node ∧ tail (push s node) = tail s) ∧
  (∀ x, x ≠ node → head s ≠ some x →
    (push s node).heap.prev x = s.heap.prev x ∧ (push s node).heap.next x = s.heap.next x)

instance Seg.decide (h : Heap) : (p : Ptr) → (xs : List Node) → (q : Ptr) → Decidable (Seg h p xs q)
  | _, [], _ => isTrue trivial
  | p, [x], q => inferInstanceAs (Decidable (h.prev x = p ∧ h.next x = q))
  | p, x :: y :: ys, q =>
    have := Seg.decide h (some x) (y :: ys) q
    inferInstanceAs (Decidable (h.prev x = p ∧ h.next x = some y ∧ Seg h (some x) (y :: ys) q))

instance ListSeg.decide (h : Heap) (l : DoublyLinkedList) (xs : List Node) :
    Decidable (ListSeg h l xs) :=
  inferInstanceAs (Decidable (_ ∧ _ ∧ _ ∧ _))

/-! ## Slot lookups after a write -/

@[simp] theorem prev_setPrev (h : Heap) (a x : Node) (v : Ptr) :
    (h.setPrev a v).prev x = if x = a then v else h.prev x := rfl

@[simp] theorem next_setPrev (h : Heap) (a x : Node) (v : Ptr) :
    (h.setPrev a v).next x = h.next x := rfl

@[simp] theorem next_setNext (h : Heap) (a x : Node) (v : Ptr) :
    (h.setNext a v).next x = if x = a then v else h.next x := rfl

@[simp] theorem prev_setNext (h : Heap) (a x : Node) (v : Ptr) :
    (h.setNext a v).prev x = h.prev x := rfl

/-! ## The segment predicate -/

theorem firstOr_append (as bs : List Node) (q : Ptr) :
    firstOr (as ++ bs) q = firstOr as (firstOr bs q) := by
  cases as <;> rfl

theorem firstOr_none (xs : List Node) : firstOr xs none = xs.head? := by
  cases xs <;> rfl

theorem lastOr_append (as bs : List Node) (p : Ptr) :
    lastOr (as ++ bs) p = lastOr bs (lastOr as p) := by
  induction as generalizing p with
  | nil => rfl
  | cons a as ih => exact ih (some a)

theorem lastOr_concat (as : List Node) (a : Node) (p : Ptr) :
    lastOr (as ++ [a]) p = some a := by
  rw [lastOr_append]; rfl

theorem lastOr_none (xs : List Node) : lastOr xs none = xs.getLast? := by
  rcases List.eq_nil_or_concat xs with rfl | ⟨as, a, rfl⟩
  · rfl
  · rw [List.concat_eq_append, lastOr_concat]; simp

theorem seg_cons (h : Heap) (p q : Ptr) (x : Node) (xs : List Node) :
    Seg h p (x :: xs) q ↔ h.prev x = p ∧ h.next x = firstOr xs q ∧ Seg h (some x) xs q := by
  cases xs <;> simp [Seg, firstOr]

theorem seg_append (h : Heap) (p q : Ptr) (as bs : List Node) :
    Seg h p (as ++ bs) q ↔ Seg h p as (firstOr bs q) ∧ Seg h (lastOr as p) bs q := by
  induction as generalizing p with
  | nil => simp [Seg, lastOr]
  | cons a as ih =>
    rw [List.cons_append, seg_cons, seg_cons, ih, firstOr_append]
    simp only [lastOr, and_assoc]

theorem seg_frame {h h' : Heap} {p q : Ptr} {xs : List Node}
    (hfr : ∀ x ∈ xs, h'.prev x = h.prev x ∧ h'.next x = h.next x) (hs : Seg h p xs q) :
    Seg h' p xs q := by
  induction xs generalizing p with
  | nil => trivial
  | cons x xs ih =>
    rw [seg_cons] at hs ⊢
    obtain ⟨h1, h2, h3⟩ := hs
    have hx := hfr x (List.mem_cons_self x xs)
    exact ⟨hx.1.trans h1, hx.2.trans h2, ih (fun y hy => hfr y (List.mem_cons_of_mem x hy)) h3⟩

/-- Writing the next slot of the last node of a segment redirects its end. -/
theorem seg_setNext_last {h : Heap} {p q : Ptr} {as : List Node} {a : Node} (q' : Ptr)
    (hnd : a ∉ as) (hs : Seg h p (as ++ [a]) q) :
    Seg (h.setNext a q') p (as ++ [a]) q' := by
  rw [seg_append] at hs ⊢
  refine ⟨seg_frame (fun x hx => ?_) hs.1, ?_⟩
  · have : x ≠ a := fun e => hnd (e ▸ hx)
    simp [this]
  · have h2 := hs.2
    simp only [Seg, prev_setNext, next_setNext] at h2 ⊢
    exact ⟨h2.1, by simp⟩

/-- Writing the prev slot of the first node of a segment redirects its start. -/
theorem seg_setPrev_first {h : Heap} {p q : Ptr} {bs : List Node} {b : Node} (p' : Ptr)
    (hnd : b ∉ bs) (hs : Seg h p (b :: bs) q) :
    Seg (h.setPrev b p') p' (b :: bs) q := by
  rw [seg_cons] at hs ⊢
  refine ⟨by simp, by simpa using hs.2.1, seg_frame (fun x hx => ?_) hs.2.2⟩
  have : x ≠ b := fun e => hnd (e ▸ hx)
  simp [this]

/-! ## Every operation maps a well-formed list to a well-formed list -/

theorem listSeg_nil_iff (h : Heap) (l : DoublyLinkedList) :
    ListSeg h l [] ↔ l.m_head = none ∧ l.m_tail = none := by
  simp [ListSeg, Seg]

theorem listSeg_push {s : State} {xs : List Node} {n : Node}
    (hl : ListSeg s.heap s.list xs) (hn : n ∉ xs) :
    ListSeg (push s n).heap (push s n).list (n :: xs) := by
  obtain ⟨hnd, hh, ht, hs⟩ := hl
  cases xs with
  | nil =>
    simp only [List.head?_nil] at hh
    simp [push, hh, ListSeg, Seg]
  | cons x xs =>
    simp only [List.head?_cons] at hh
    have hx : x ∉ xs := (List.nodup_cons.1 hnd).1
    have hnx : n ≠ x := fun e => hn (e ▸ List.mem_cons_self n xs)
    refine ⟨List.nodup_cons.2 ⟨hn, hnd⟩, ?_, ?_, ?_⟩
    · simp [push, hh]
    · simp [push, hh, ht, List.getLast?_cons_cons]
    · simp only [push, hh]
      rw [seg_cons]
      refine ⟨by simp, by simp [firstOr], ?_⟩
      refine seg_frame (fun y hy => ?_) (seg_setPrev_first (some n) hx hs)
      have : y ≠ n := fun e => hn (e ▸ hy)
      simp [this]

theorem listSeg_append {s : State} {xs : List Node} {n : Node}
    (hl : ListSeg s.heap s.list xs) (hn : n ∉ xs) :
    ListSeg (append s n).heap (append s n).list (xs ++ [n]) := by
  obtain ⟨hnd, hh, ht, hs⟩ := hl
  rcases List.eq_nil_or_concat xs with rfl | ⟨as, a, rfl⟩
  · simp only [List.getLast?_nil] at ht
    simp [append, ht, ListSeg, Seg]
  · rw [List.concat_eq_append] at hnd hh ht hs hn ⊢
    simp only [List.getLast?_concat] at ht
    have ha : a ∉ as := fun hm =>
      (List.nodup_append.1 hnd).2.2 hm (List.mem_singleton_self a)
    have hna : n ≠ a := fun e => hn (e ▸ by simp)
    refine ⟨?_, ?_, ?_, ?_⟩
    · exact List.nodup_append.2 ⟨hnd, List.nodup_singleton n, by
        intro y hy hy2
        rw [List.mem_singleton] at hy2
        exact hn (hy2 ▸ hy)⟩
    · cases as <;> simp [append, ht, hh]
    · simp [append, ht]
    · simp only [append, ht]
      rw [seg_append]
      refine ⟨?_, ?_⟩
      · refine seg_frame (fun y hy => ?_) (seg_setNext_last (some n) ha hs)
        have : y ≠ n := fun e => hn (e ▸ hy)
        simp [this]
      · rw [lastOr_concat]
        simp [Seg]

theorem listSeg_clear (s : State) : ListSeg (clear s).heap (clear s).list [] := by
  simp [listSeg_nil_iff, clear, DoublyLinkedList.clear]

theorem listSeg_remove_mid {s : State} {as bs : List Node} {n : Node}
    (hl : ListSeg s.heap s.list (as ++ n :: bs)) :
    ListSeg (remove s n).heap (remove s n).list (as ++ bs) := by
  obtain ⟨hnd, hh, ht, hs⟩ := hl
  rw [← firstOr_none, firstOr_append] at hh
  rw [← lastOr_none, lastOr_append] at ht
  rw [seg_append, seg_cons] at hs
  obtain ⟨hs1, hp, hx, hs2⟩ := hs
  have hna : n ∉ as := fun hm =>
    (List.nodup_append.1 hnd).2.2 hm (List.mem_cons_self n bs)
  have hnb : n ∉ bs := (List.nodup_cons.1 (List.nodup_append.1 hnd).2.1).1
  have hdis : ∀ y, y ∈ as → y ∈ bs → False := fun y h1 h2 =>
    (List.nodup_append.1 hnd).2.2 h1 (List.mem_cons_of_mem n h2)
  have hndas : as.Nodup := (List.nodup_append.1 hnd).1
  have hndbs : bs.Nodup := (List.nodup_cons.1 (List.nodup_append.1 hnd).2.1).2
  have hnd2 : (as ++ bs).Nodup := List.nodup_append.2 ⟨hndas, hndbs, fun y h1 h2 => hdis y h1 h2⟩
  -- the state after the first `if`
  have key : ∃ s1, removeFront s n = s1 ∧ s1.list.m_head = firstOr as (firstOr bs none) ∧
      s1.list.m_tail = s.list.m_tail ∧ Seg s1.heap none as (firstOr bs none) ∧
      s1.heap.prev n = lastOr as none ∧ s1.heap.next n = firstOr bs none ∧
      Seg s1.heap (some n) bs none := by
    rcases List.eq_nil_or_concat as with rfl | ⟨as1, a, rfl⟩
    · have e : removeFront s n = ⟨s.heap, ⟨s.heap.next n, s.list.m_tail⟩⟩ := by
        simp only [lastOr] at hp
        simp only [removeFront, hp]
      exact ⟨_, e, hx, rfl, trivial, hp, hx, hs2⟩
    · rw [List.concat_eq_append] at hs1 hp hna hdis hh hndas ⊢
      rw [lastOr_concat] at hp ⊢
      have e : removeFront s n = ⟨s.heap.setNext a (s.heap.next n), s.list⟩ := by
        simp only [removeFront, hp]
      have ha : a ∉ as1 := fun hm =>
        (List.nodup_append.1 hndas).2.2 hm (List.mem_singleton_self a)
      have han : n ≠ a := fun e => hna (e ▸ by simp)
      refine ⟨_, e, ?_, rfl, ?_, hp, ?_, ?_⟩
      · rw [firstOr_append] at hh ⊢
        exact hh
      · rw [hx]; exact seg_setNext_last _ ha hs1
      · simpa [han] using hx
      · refine seg_frame (fun y hy => ?_) hs2
        have : y ≠ a := fun e => hdis a (by simp) (e ▸ hy)
        simp [this]
  obtain ⟨s1, hs1eq, kh, kt, ks1, kp, kx, ks2⟩ := key
  refine ⟨hnd2, ?_, ?_, ?_⟩
  · rw [← firstOr_none, firstOr_append, remove, hs1eq]
    cases bs <;> simp only [removeBack, kx, firstOr] <;> exact kh
  · rw [← lastOr_none, lastOr_append, remove, hs1eq]
    cases bs with
    | nil => simp only [removeBack, kx, firstOr, lastOr]; exact kp
    | cons b bs1 =>
      simp only [removeBack, kx, firstOr, lastOr]
      rw [kt, ht]; rfl
  · rw [seg_append, remove, hs1eq]
    cases bs with
    | nil =>
      simp only [removeBack, kx, firstOr]
      exact ⟨ks1, trivial⟩
    | cons b bs1 =>
      simp only [removeBack, kx, firstOr, kp]
      refine ⟨seg_frame (fun y hy => ?_) ks1, ?_⟩
      · have : y ≠ b := fun e => hdis y hy (e ▸ List.mem_cons_self b bs1)
        simp [this]
      · exact seg_setPrev_first _ (List.nodup_cons.1 hndbs).1 ks2

theorem listSeg_remove {s : State} {xs : List Node} {n : Node}
    (hl : ListSeg s.heap s.list xs) (hn : n ∈ xs) :
    ListSeg (remove s n).heap (remove s n).list (xs.erase n) := by
  obtain ⟨as, bs, rfl⟩ := List.append_of_mem hn
  have hna : n ∉ as := fun hm =>
    (List.nodup_append.1 hl.1).2.2 hm (List.mem_cons_self n bs)
  rw [List.erase_append_right _ hna, List.erase_cons_head]
  exact listSeg_remove_mid hl

theorem listSeg_appendList {s : State} {other : DoublyLinkedList} {as bs : List Node}
    (hl : ListSeg s.heap s.list as) (ho : ListSeg s.heap other bs)
    (hdis : ∀ x, x ∈ as → x ∉ bs) :
    ∃ s1, appendList s other = some (s1, DoublyLinkedList.new) ∧
      ListSeg s1.heap s1.list (as ++ bs) := by
  obtain ⟨hnd, hh, ht, hs⟩ := hl
  obtain ⟨ond, oh, ot, os⟩ := ho
  cases bs with
  | nil =>
    simp only [List.head?_nil] at oh
    simp only [List.getLast?_nil] at ot
    have e : appendList s other = some (s, DoublyLinkedList.new) := by
      obtain ⟨o1, o2⟩ := other
      simp only at oh ot
      subst oh ot
      rfl
    exact ⟨s, e, by simpa using ⟨hnd, hh, ht, hs⟩⟩
  | cons b bs1 =>
    simp only [List.head?_cons] at oh
    rcases List.eq_nil_or_concat as with rfl | ⟨as1, a, rfl⟩
    · simp only [List.head?_nil] at hh
      have e : appendList s other =
          some (⟨s.heap, ⟨other.m_head, other.m_tail⟩⟩, DoublyLinkedList.new) := by
        simp only [appendList, DoublyLinkedList.head, oh, head, hh]
        rfl
      exact ⟨_, e, ond, by simp [oh], ot, os⟩
    · rw [List.concat_eq_append] at hnd hh ht hs hdis ⊢
      simp only [List.getLast?_concat] at ht
      have hh2 : ∃ y, s.list.m_head = some y := by
        cases as1 <;> exact ⟨_, by simpa using hh⟩
      obtain ⟨y, hy⟩ := hh2
      have ha : a ∉ as1 := fun hm =>
        (List.nodup_append.1 hnd).2.2 hm (List.mem_singleton_self a)
      have hb : b ∉ bs1 := (List.nodup_cons.1 ond).1
      have e : appendList s other =
          some (⟨(s.heap.setNext a (some b)).setPrev b (some a),
            ⟨s.list.m_head, other.m_tail⟩⟩, DoublyLinkedList.new) := by
        simp only [appendList, DoublyLinkedList.head, oh, head, hy, ht]
        rfl
      refine ⟨_, e, ?_⟩
      refine ⟨List.nodup_append.2 ⟨hnd, ond, fun x h1 h2 => hdis x h1 h2⟩, ?_, ?_, ?_⟩
      · rw [hh]; cases as1 <;> simp
      · simpa using ot
      · rw [seg_append, lastOr_concat]
        refine ⟨?_, ?_⟩
        · refine seg_frame (fun x hx => ?_) (seg_setNext_last (some b) ha hs)
          have : x ≠ b := fun e => hdis x hx (e ▸ List.mem_cons_self b bs1)
          simp [this]
        · refine seg_setPrev_first (some a) hb (seg_frame (fun x hx => ?_) os)
          have : x ≠ a := fun e => hdis a (by simp) (e ▸ hx)
          simp [this]

theorem seg_iff_chain (h : Heap) (p q : Ptr) (xs : List Node) :
    Seg h p xs q ↔ xs.Chain' (fun x y => h.next x = some y ∧ h.prev y = some x) ∧
      (∀ x ∈ xs.head?, h.prev x = p) ∧ (∀ x ∈ xs.getLast?, h.next x = q) := by
  induction xs generalizing p with
  | nil => simp [Seg]
  | cons x xs ih =>
    cases xs with
    | nil => simp [Seg]
    | cons y ys =>
      have := ih (some x)
      simp only [Seg, this, List.chain'_cons, List.head?_cons, Option.mem_def, Option.some.injEq,
        forall_eq', List.getLast?_cons_cons]
      tauto

theorem isList_iff_listSeg (h : Heap) (l : DoublyLinkedList) (xs : List Node) :
    IsList h l xs ↔ ListSeg h l xs := by
  simp only [IsList, ListSeg, seg_iff_chain]

/-! ## Well-formedness in the indexed form -/

theorem isList_nil_iff (h : Heap) (l : DoublyLinkedList) :
    IsList h l [] ↔ l.m_head = none ∧ l.m_tail = none := by
  rw [isList_iff_listSeg, listSeg_nil_iff]

theorem isList_push {s : State} {xs : List Node} {n : Node}
    (hl : IsList s.heap s.list xs) (hn : n ∉ xs) :
    IsList (push s n).heap (push s n).list (n :: xs) :=
  (isList_iff_listSeg _ _ _).2 (listSeg_push ((isList_iff_listSeg _ _ _).1 hl) hn)

theorem isList_append {s : State} {xs : List Node} {n : Node}
    (hl : IsList s.heap s.list xs) (hn : n ∉ xs) :
    IsList (append s n).heap (append s n).list (xs ++ [n]) :=
  (isList_iff_listSeg _ _ _).2 (listSeg_append ((isList_iff_listSeg _ _ _).1 hl) hn)

theorem isList_remove {s : State} {xs : List Node} {n : Node}
    (hl : IsList s.heap s.list xs) (hn : n ∈ xs) :
    IsList (remove s n).heap (remove s n).list (xs.erase n) :=
  (isList_iff_listSeg _ _ _).2 (listSeg_remove ((isList_iff_listSeg _ _ _).1 hl) hn)

theorem isList_clear (s : State) : IsList (clear s).heap (clear s).list [] :=
  (isList_iff_listSeg _ _ _).2 (listSeg_clear s)

theorem isList_appendList {s : State} {other : DoublyLinkedList} {as bs : List Node}
    (hl : IsList s.heap s.list as) (ho : IsList s.heap other bs)
    (hdis : ∀ x, x ∈ as → x ∉ bs) :
    ∃ s1, appendList s other = some (s1, DoublyLinkedList.new) ∧
      IsList s1.heap s1.list (as ++ bs) := by
  obtain ⟨s1, h1, h2⟩ := listSeg_appendList ((isList_iff_listSeg _ _ _).1 hl)
    ((isList_iff_listSeg _ _ _).1 ho) hdis
  exact ⟨s1, h1, (isList_iff_listSeg _ _ _).2 h2⟩

theorem removeHead_nil {s : State} (hl : IsList s.heap s.list []) : removeHead s = (none, s) := by
  have hh : s.list.m_head = none := ((isList_nil_iff _ _).1 hl).1
  simp [removeHead, head, DoublyLinkedList.head, hh]

theorem removeHead_cons {s : State} {x : Node} {xs : List Node}
    (hl : IsList s.heap s.list (x :: xs)) : removeHead s = (some x, remove s x) := by
  have hh : s.list.m_head = some x := hl.2.1
  simp [removeHead, head, DoublyLinkedList.head, hh]

theorem isList_remove_head {s : State} {x : Node} {xs : List Node}
    (hl : IsList s.heap s.list (x :: xs)) : IsList (remove s x).heap (remove s x).list xs := by
  have := isList_remove hl (List.mem_cons_self x xs)
  rwa [List.erase_cons_head] at this

theorem exA_isList : IsList exA.heap exA.list [1, 2] :=
  (isList_iff_listSeg _ _ _).2 (by decide)

theorem exB_isList : IsList exA.heap exB [3, 4] :=
  (isList_iff_listSeg _ _ _).2 (by decide)

/-! ## Traversal along next slots -/

theorem walk_none (h : Heap) (k : Nat) : walk h k none = none := by
  cases k <;> rfl

theorem walk_seg {h : Heap} {p : Ptr} {xs : List Node} (hs : Seg h p xs none) (k : Nat) :
    walk h k (firstOr xs none) = xs[k]? := by
  induction xs generalizing p k with
  | nil => simp [firstOr, walk_none]
  | cons x xs ih =>
    rw [seg_cons] at hs
    cases k with
    | zero => simp [firstOr, walk]
    | succ k =>
      simp only [firstOr, walk, hs.2.1, List.getElem?_cons_succ]
      exact ih hs.2.2 k

theorem member_iff {s : State} {xs : List Node} (hl : IsList s.heap s.list xs) (n : Node) :
    Member s n ↔ n ∈ xs := by
  rw [isList_iff_listSeg] at hl
  obtain ⟨_, hh, _, hs⟩ := hl
  unfold Member
  rw [hh, ← firstOr_none, List.mem_iff_getElem?]
  simp only [walk_seg hs]

theorem sizeLoop_seg {h : Heap} {p : Ptr} {xs : List Node} (hs : Seg h p xs none)
    (fuel acc : Nat) (hf : xs.length ≤ fuel) :
    sizeLoop h fuel (firstOr xs none) acc = some (acc + xs.length) := by
  induction xs generalizing p fuel acc with
  | nil => cases fuel <;> simp [firstOr, sizeLoop]
  | cons x xs ih =>
    rw [seg_cons] at hs
    cases fuel with
    | zero => simp at hf
    | succ fuel =>
      show sizeLoop h (fuel + 1) (some x) acc = _
      rw [sizeLoop, hs.2.1, ih hs.2.2 fuel (acc + 1) (by simpa using hf)]
      simp only [List.length_cons]
      congr 1
      omega

theorem size_isList {s : State} {xs : List Node} (hl : IsList s.heap s.list xs)
    (fuel : Nat) (hf : xs.length ≤ fuel) : size fuel s = some xs.length := by
  rw [isList_iff_listSeg] at hl
  obtain ⟨_, hh, _, hs⟩ := hl
  unfold size
  rw [hh, ← firstOr_none, sizeLoop_seg hs fuel 0 hf, Nat.zero_add]

/-! ## Sequences of operations -/

theorem isList_new (h : Heap) : IsList h DoublyLinkedList.new [] :=
  (isList_nil_iff _ _).2 ⟨rfl, rfl⟩

theorem reachable_wellFormed {s : State} (hr : Reachable s) : WellFormed s.heap s.list := by
  induction hr with
  | init h => exact ⟨[], isList_new h⟩
  | push s n _ hn ih =>
    obtain ⟨xs, hl⟩ := ih
    exact ⟨_, isList_push hl (fun hm => hn ((member_iff hl n).2 hm))⟩
  | append s n _ hn ih =>
    obtain ⟨xs, hl⟩ := ih
    exact ⟨_, isList_append hl (fun hm => hn ((member_iff hl n).2 hm))⟩
  | remove s n _ hn ih =>
    obtain ⟨xs, hl⟩ := ih
    exact ⟨_, isList_remove hl ((member_iff hl n).1 hn)⟩

theorem isList_foldl_append {s : State} {xs : List Node} (ns : List Node)
    (hl : IsList s.heap s.list xs) (hnd : ns.Nodup) (hdis : ∀ n, n ∈ ns → n ∉ xs) :
    IsList (ns.foldl append s).heap (ns.foldl append s).list (xs ++ ns) := by
  induction ns generalizing s xs with
  | nil => simpa using hl
  | cons n ns ih =>
    have hn : n ∉ ns := (List.nodup_cons.1 hnd).1
    have h1 := isList_append hl (hdis n (List.mem_cons_self n ns))
    have h2 := ih h1 (List.nodup_cons.1 hnd).2 (fun m hm hx => by
      rcases List.mem_append.1 hx with hx | hx
      · exact hdis m (List.mem_cons_of_mem n hm) hx
      · rw [List.mem_singleton] at hx
        exact hn (hx ▸ hm))
    simpa using h2

theorem isList_foldl_push {s : State} {xs : List Node} (ns : List Node)
    (hl : IsList s.heap s.list xs) (hnd : ns.Nodup) (hdis : ∀ n, n ∈ ns → n ∉ xs) :
    IsList (ns.foldl push s).heap (ns.foldl push s).list (ns.reverse ++ xs) := by
  induction ns generalizing s xs with
  | nil => simpa using hl
  | cons n ns ih =>
    have hn : n ∉ ns := (List.nodup_cons.1 hnd).1
    have h1 := isList_push hl (hdis n (List.mem_cons_self n ns))
    have h2 := ih h1 (List.nodup_cons.1 hnd).2 (fun m hm hx => by
      rcases List.mem_cons.1 hx with hx | hx
      · exact hn (hx ▸ hm)
      · exact hdis m (List.mem_cons_of_mem n hm) hx)
    simpa using h2

theorem removeHeads_isList {s : State} {xs : List Node} (hl : IsList s.heap s.list xs) :
    (removeHeads xs.length s).1 = xs.map some ∧
      IsList (removeHeads xs.length s).2.heap (removeHeads xs.length s).2.list [] := by
  induction xs generalizing s with
  | nil => exact ⟨rfl, hl⟩
  | cons x xs ih =>
    have h1 := ih (isList_remove_head hl)
    simp only [List.length_cons, removeHeads, removeHead_cons hl, List.map_cons]
    exact ⟨by rw [h1.1], h1.2⟩

theorem empty_of_isList_nil {s : State} (hl : IsList s.heap s.list []) :
    isEmpty s = true ∧ head s = none ∧ tail s = none ∧ (removeHead s).1 = none := by
  have h := (isList_nil_iff _ _).1 hl
  rw [removeHead_nil hl]
  simp [isEmpty, DoublyLinkedList.isEmpty, head, DoublyLinkedList.head, tail,
    DoublyLinkedList.tail, h.1, h.2]

/-! ## Debug build against release build -/

theorem pushDebug_eq (s : State) (n : Node) :
    pushDebug s n =
      if s.list.m_head.isNone = s.list.m_tail.isNone then some (push s n) else none := by
  unfold pushDebug push ASSERT
  cases hh : s.list.m_head <;> cases ht : s.list.m_tail <;> simp

theorem appendDebug_eq (s : State) (n : Node) :
    appendDebug s n =
      if s.list.m_head.isNone = s.list.m_tail.isNone then some (append s n) else none := by
  unfold appendDebug append ASSERT
  cases hh : s.list.m_head <;> cases ht : s.list.m_tail <;> simp

theorem removeFrontDebug_eq (s : State) (n : Node) :
    removeFrontDebug s n =
      if ((s.heap.prev n).isSome ↔ some n ≠ s.list.m_head) then some (removeFront s n)
      else none := by
  unfold removeFrontDebug removeFront ASSERT
  cases hp : s.heap.prev n <;> by_cases hh : some n = s.list.m_head <;> simp [hh]

theorem removeBackDebug_eq (s : State) (n : Node) :
    removeBackDebug s n =
      if ((s.heap.next n).isSome ↔ some n ≠ s.list.m_tail) then some (removeBack s n)
      else none := by
  unfold removeBackDebug removeBack ASSERT
  cases hp : s.heap.next n <;> by_cases hh : some n = s.list.m_tail <;> simp [hh]

theorem next_removeFront (s : State) (n : Node) :
    (removeFront s n).heap.next n = s.heap.next n := by
  unfold removeFront
  cases hp : s.heap.prev n <;> simp

theorem tail_removeFront (s : State) (n : Node) :
    (removeFront s n).list.m_tail = s.list.m_tail := by
  unfold removeFront
  cases hp : s.heap.prev n <;> rfl

/-- The debug build of `remove` halts exactly when one of the two executed assertions fails:
the first compares `node` with `m_head`, the second compares it with `m_tail`. -/
theorem removeDebug_eq (s : State) (n : Node) :
    removeDebug s n =
      if ((s.heap.prev n).isSome ↔ some n ≠ s.list.m_head) ∧
          ((s.heap.next n).isSome ↔ some n ≠ s.list.m_tail) then some (remove s n)
      else none := by
  unfold removeDebug
  rw [removeFrontDebug_eq]
  by_cases h1 : ((s.heap.prev n).isSome ↔ some n ≠ s.list.m_head)
  · simp only [h1, if_true, true_and]
    show removeBackDebug (removeFront s n) n = _
    rw [removeBackDebug_eq, next_removeFront, tail_removeFront]
    rfl
  · simp only [h1, if_false, false_and]
    rfl

theorem head_tail_of_isList {s : State} {xs : List Node} (hl : IsList s.heap s.list xs) :
    s.list.m_head.isNone = s.list.m_tail.isNone := by
  rw [hl.2.1, hl.2.2.1]
  rcases List.eq_nil_or_concat xs with rfl | ⟨as, a, rfl⟩
  · rfl
  · cases as <;> simp

theorem ne_head_of_not_mem {s : State} {xs : List Node} {n : Node}
    (hl : IsList s.heap s.list xs) (hn : n ∉ xs) : some n ≠ s.list.m_head := by
  rw [hl.2.1]
  exact fun e => hn (List.mem_of_mem_head? e.symm)

theorem ne_tail_of_not_mem {s : State} {xs : List Node} {n : Node}
    (hl : IsList s.heap s.list xs) (hn : n ∉ xs) : some n ≠ s.list.m_tail := by
  rw [hl.2.2.1]
  exact fun e => hn (List.mem_of_mem_getLast? e.symm)

theorem asserts_of_mem {s : State} {xs : List Node} {n : Node}
    (hl : IsList s.heap s.list xs) (hn : n ∈ xs) :
    ((s.heap.prev n).isSome ↔ some n ≠ s.list.m_head) ∧
      ((s.heap.next n).isSome ↔ some n ≠ s.list.m_tail) := by
  obtain ⟨as, bs, rfl⟩ := List.append_of_mem hn
  obtain ⟨hnd, hh, ht, hs⟩ := (isList_iff_listSeg _ _ _).1 hl
  rw [← firstOr_none, firstOr_append] at hh
  rw [← lastOr_none, lastOr_append] at ht
  rw [seg_append, seg_cons] at hs
  obtain ⟨-, hp, hx, -⟩ := hs
  have hna : n ∉ as := fun hm =>
    (List.nodup_append.1 hnd).2.2 hm (List.mem_cons_self n bs)
  have hnb : n ∉ bs := (List.nodup_cons.1 (List.nodup_append.1 hnd).2.1).1
  refine ⟨?_, ?_⟩
  · rw [hp, hh]
    cases as with
    | nil => simp [lastOr, firstOr]
    | cons a as1 =>
      have hne : n ≠ a := fun e => hna (e ▸ List.mem_cons_self n as1)
      rcases List.eq_nil_or_concat (a :: as1) with h0 | ⟨l, b, h0⟩
      · cases h0
      · rw [List.concat_eq_append] at h0
        rw [h0, lastOr_concat, ← h0]
        simp [firstOr, hne]
  · rw [hx, ht]
    cases bs with
    | nil => simp [lastOr, firstOr]
    | cons b bs1 =>
      rcases List.eq_nil_or_concat (b :: bs1) with h0 | ⟨l, c, h0⟩
      · cases h0
      · rw [List.concat_eq_append] at h0
        have hc : c ∈ b :: bs1 := h0 ▸ (by simp)
        have hne : n ≠ c := fun e => hnb (e ▸ hc)
        have e1 : lastOr (n :: b :: bs1) (lastOr as none) = some c := by
          show lastOr (b :: bs1) (some n) = some c
          rw [h0, lastOr_concat]
        rw [e1]
        simp [firstOr, hne]

theorem appendListDebug_eq {s : State} {other : DoublyLinkedList} {as bs : List Node}
    (hl : IsList s.heap s.list as) (ho : IsList s.heap other bs) :
    appendListDebug s other = appendList s other := by
  have hnext := hl.2.2.2.2.2
  have hprev := ho.2.2.2.2.1
  have hh := hl.2.1
  have ht := hl.2.2.1
  have oh := ho.2.1
  cases bs with
  | nil =>
    simp only [List.head?_nil] at oh
    simp only [appendListDebug, appendList, DoublyLinkedList.head, oh]
  | cons b bs1 =>
    simp only [List.head?_cons] at oh
    have hpb : s.heap.prev b = none := hprev b rfl
    rcases List.eq_nil_or_concat as with rfl | ⟨as1, a, rfl⟩
    · simp only [List.head?_nil] at hh
      simp only [appendListDebug, appendList, DoublyLinkedList.head, oh, head, hh]
    · rw [List.concat_eq_append] at hh ht hnext
      simp only [List.getLast?_concat] at ht hnext
      have hna : s.heap.next a = none := hnext a rfl
      have hh2 : ∃ y, s.list.m_head = some y := by
        cases as1 <;> exact ⟨_, by simpa using hh⟩
      obtain ⟨y, hy⟩ := hh2
      simp [appendListDebug, appendList, DoublyLinkedList.head, DoublyLinkedList.tail, oh,
        head, tail, hy, ht, ASSERT, hna, hpb]

/-! ## The slots and the list object after `remove` -/

theorem remove_next (s : State) (node : Node) (x : Node) :
    (remove s node).heap.next x =
      if s.heap.prev node = some x then s.heap.next node else s.heap.next x := by
  unfold remove removeFront removeBack
  cases hp : s.heap.prev node <;> cases hx : s.heap.next node <;>
    simp [hp, hx, eq_comm]

theorem remove_prev (s : State) (node : Node) (x : Node) :
    (remove s node).heap.prev x =
      if s.heap.next node = some x then s.heap.prev node else s.heap.prev x := by
  unfold remove removeFront removeBack
  cases hp : s.heap.prev node <;> cases hx : s.heap.next node <;>
    simp [hp, hx, eq_comm]

theorem remove_head (s : State) (node : Node) :
    head (remove s node) = if s.heap.prev node = none then s.heap.next node else head s := by
  unfold remove removeFront removeBack head DoublyLinkedList.head
  cases hp : s.heap.prev node <;> cases hx : s.heap.next node <;> simp [hp, hx]

theorem remove_tail (s : State) (node : Node) :
    tail (remove s node) = if s.heap.next node = none then s.heap.prev node else tail s := by
  unfold remove removeFront removeBack tail DoublyLinkedList.tail
  cases hp : s.heap.prev node <;> cases hx : s.heap.next node <;> simp [hp, hx]

/-! ## Traversal along prev slots -/

theorem walkBack_none (h : Heap) (k : Nat) : walkBack h k none = none := by
  cases k <;> rfl

theorem walkBack_seg {h : Heap} {q : Ptr} {xs : List Node} (hs : Seg h none xs q) (k : Nat) :
    walkBack h k (lastOr xs none) = xs.reverse[k]? := by
  induction xs using List.reverseRecOn generalizing q k with
  | nil => simp [lastOr, walkBack_none]
  | append_singleton as a ih =>
    rw [seg_append] at hs
    have hp : h.prev a = lastOr as none := hs.2.1
    rw [lastOr_concat, List.reverse_append, List.reverse_singleton, List.singleton_append]
    cases k with
    | zero => simp [walkBack]
    | succ k =>
      simp only [walkBack, hp, List.getElem?_cons_succ]
      exact ih hs.1 k

/-! ## C1 -/

/-- C1: every operation preserves well-formedness. For a well-formed list with node sequence
`xs`: `push(n)` and `append(n)` with `n` not in `xs`, `remove(n)` with `n` in `xs`,
`removeHead()`, `clear()`, and `append(other)` with `other` well-formed over the same heap and
sharing no node with `xs`, all leave the list well-formed; `append(other)` returns and leaves
`other` well-formed too. -/
theorem wellFormed_preserved (s : State) (xs : List Node) (hl : IsList s.heap s.list xs) :
    (∀ n, n ∉ xs → WellFormed (push s n).heap (push s n).list) ∧
    (∀ n, n ∉ xs → WellFormed (append s n).heap (append s n).list) ∧
    (∀ n, n ∈ xs → WellFormed (remove s n).heap (remove s n).list) ∧
    WellFormed (removeHead s).2.heap (removeHead s).2.list ∧
    WellFormed (clear s).heap (clear s).list ∧
    (∀ other ys, IsList s.heap other ys → (∀ x, x ∈ xs → x ∉ ys) →
      ∃ s1 o1, appendList s other = some (s1, o1) ∧
        WellFormed s1.heap s1.list ∧ WellFormed s1.heap o1) := by
  refine ⟨fun n hn => ⟨_, isList_push hl hn⟩, fun n hn => ⟨_, isList_append hl hn⟩,
    fun n hn => ⟨_, isList_remove hl hn⟩, ?_, ⟨_, isList_clear s⟩, ?_⟩
  · cases xs with
    | nil => rw [removeHead_nil hl]; exact ⟨_, hl⟩
    | cons x xs => rw [removeHead_cons hl]; exact ⟨_, isList_remove_head hl⟩
  · intro other ys ho hdis
    obtain ⟨s1, h1, h2⟩ := isList_appendList hl ho hdis
    exact ⟨s1, _, h1, ⟨_, h2⟩, ⟨[], (isList_nil_iff _ _).2 ⟨rfl, rfl⟩⟩⟩

/-- Witness of C1 on `A = [1, 2]`, `B = [3, 4]`, with the fresh node 5 and the member 1. -/
theorem wellFormed_preserved_witness :
    IsList exA.heap exA.list [1, 2] ∧ 5 ∉ [1, 2] ∧ 1 ∈ [1, 2] ∧
    IsList exA.heap exB [3, 4] ∧ (∀ x, x ∈ [1, 2] → x ∉ [3, 4]) ∧
    WellFormed (push exA 5).heap (push exA 5).list ∧
    WellFormed (append exA 5).heap (append exA 5).list ∧
    WellFormed (remove exA 1).heap (remove exA 1).list ∧
    WellFormed (removeHead exA).2.heap (removeHead exA).2.list ∧
    WellFormed (clear exA).heap (clear exA).list ∧
    (∃ s1 o1, appendList exA exB = some (s1, o1) ∧
      WellFormed s1.heap s1.list ∧ WellFormed s1.heap o1) :=
  ⟨exA_isList, by decide, by decide, exB_isList, by decide,
    (wellFormed_preserved exA [1, 2] exA_isList).1 5 (by decide),
    (wellFormed_preserved exA [1, 2] exA_isList).2.1 5 (by decide),
    (wellFormed_preserved exA [1, 2] exA_isList).2.2.1 1 (by decide),
    (wellFormed_preserved exA [1, 2] exA_isList).2.2.2.1,
    (wellFormed_preserved exA [1, 2] exA_isList).2.2.2.2.1,
    (wellFormed_preserved exA [1, 2] exA_isList).2.2.2.2.2 exB [3, 4] exB_isList (by decide)⟩

/-! ## C2 -/

/-- C2: in every state reachable from a newly constructed list by `push(n)` / `append(n)` with
`n` not in the list and `remove(n)` with `n` in the list, `isEmpty()` is true exactly when
`head()` is null, and `head()` is null exactly when `tail()` is null. -/
theorem isEmpty_iff_head_iff_tail (s : State) (hr : Reachable s) :
    (isEmpty s = true ↔ head s = none) ∧ (head s = none ↔ tail s = none) := by
  refine ⟨by simp [isEmpty, DoublyLinkedList.isEmpty, head, DoublyLinkedList.head], ?_⟩
  obtain ⟨xs, hl⟩ := reachable_wellFormed hr
  have hh : s.list.m_head = xs.head? := hl.2.1
  have ht : s.list.m_tail = xs.getLast? := hl.2.2.1
  simp only [head, DoublyLinkedList.head, tail, DoublyLinkedList.tail, hh, ht]
  simp

/-- Witness of C2: the state after `push(1)`, `append(2)`, `remove(1)` on a new list. -/
theorem isEmpty_iff_head_iff_tail_witness :
    Reachable (remove (append (push ⟨exHeap, DoublyLinkedList.new⟩ 1) 2) 1) ∧
    ((isEmpty (remove (append (push ⟨exHeap, DoublyLinkedList.new⟩ 1) 2) 1) = true ↔
        head (remove (append (push ⟨exHeap, DoublyLinkedList.new⟩ 1) 2) 1) = none) ∧
      (head (remove (append (push ⟨exHeap, DoublyLinkedList.new⟩ 1) 2) 1) = none ↔
        tail (remove (append (push ⟨exHeap, DoublyLinkedList.new⟩ 1) 2) 1) = none)) :=
  have h0 : IsList exHeap DoublyLinkedList.new [] := isList_new exHeap
  have h1 := isList_push (s := ⟨exHeap, DoublyLinkedList.new⟩) (n := 1) h0 (by decide)
  have h2 := isList_append (n := 2) h1 (by decide)
  have r0 := Reachable.init exHeap
  have r1 := Reachable.push _ 1 r0 (fun hm => absurd ((member_iff h0 1).1 hm) (by decide))
  have r2 := Reachable.append _ 2 r1 (fun hm => absurd ((member_iff h1 2).1 hm) (by decide))
  have r3 := Reachable.remove _ 1 r2 ((member_iff h2 1).2 (by decide))
  ⟨r3, isEmpty_iff_head_iff_tail _ r3⟩

/-! ## C3 -/

/-- C3 (FIFO): for pairwise distinct nodes `ns` and any heap `h`, appending them in order to a
new list with `append(node)` and calling `removeHead()` `ns.length` times returns the nodes in
insertion order; afterwards the list is empty and one more `removeHead()` returns null. -/
theorem append_removeHead_fifo (h : Heap) (ns : List Node) (hnd : ns.Nodup) :
    (removeHeads ns.length (ns.foldl append ⟨h, DoublyLinkedList.new⟩)).1 = ns.map some ∧
    isEmpty (removeHeads ns.length (ns.foldl append ⟨h, DoublyLinkedList.new⟩)).2 = true ∧
    head (removeHeads ns.length (ns.foldl append ⟨h, DoublyLinkedList.new⟩)).2 = none ∧
    tail (removeHeads ns.length (ns.foldl append ⟨h, DoublyLinkedList.new⟩)).2 = none ∧
    (removeHead (removeHeads ns.length (ns.foldl append ⟨h, DoublyLinkedList.new⟩)).2).1
      = none := by
  have hl := isList_foldl_append (s := ⟨h, DoublyLinkedList.new⟩) ns (isList_new h) hnd
    (fun _ _ => List.not_mem_nil _)
  rw [List.nil_append] at hl
  exact ⟨(removeHeads_isList hl).1, empty_of_isList_nil (removeHeads_isList hl).2⟩

/-- Witness of C3: nodes 2, 1, 3 over a heap whose slots hold earlier values. -/
theorem append_removeHead_fifo_witness :
    [2, 1, 3].Nodup ∧
    (removeHeads 3 ([2, 1, 3].foldl append ⟨exHeap, DoublyLinkedList.new⟩)).1
      = [some 2, some 1, some 3] :=
  ⟨by decide, (append_removeHead_fifo exHeap [2, 1, 3] (by decide)).1⟩

/-! ## C4 -/

/-- C4 (LIFO): for pairwise distinct nodes `ns` and any heap `h`, pushing them in order onto a
new list with `push(node)` and calling `removeHead()` `ns.length` times returns the nodes in
reverse insertion order; afterwards the list is empty. -/
theorem push_removeHead_lifo (h : Heap) (ns : List Node) (hnd : ns.Nodup) :
    (removeHeads ns.length (ns.foldl push ⟨h, DoublyLinkedList.new⟩)).1
      = ns.reverse.map some ∧
    isEmpty (removeHeads ns.length (ns.foldl push ⟨h, DoublyLinkedList.new⟩)).2 = true ∧
    head (removeHeads ns.length (ns.foldl push ⟨h, DoublyLinkedList.new⟩)).2 = none ∧
    tail (removeHeads ns.length (ns.foldl push ⟨h, DoublyLinkedList.new⟩)).2 = none := by
  have hl := isList_foldl_push (s := ⟨h, DoublyLinkedList.new⟩) ns (isList_new h) hnd
    (fun _ _ => List.not_mem_nil _)
  rw [List.append_nil] at hl
  have h1 := removeHeads_isList hl
  rw [List.length_reverse] at h1
  have h2 := empty_of_isList_nil h1.2
  exact ⟨h1.1, h2.1, h2.2.1, h2.2.2.1⟩

/-- Witness of C4: nodes 2, 1, 3 over a heap whose slots hold earlier values. -/
theorem push_removeHead_lifo_witness :
    [2, 1, 3].Nodup ∧
    (removeHeads 3 ([2, 1, 3].foldl push ⟨exHeap, DoublyLinkedList.new⟩)).1
      = [some 3, some 1, some 2] :=
  ⟨by decide, (push_removeHead_lifo exHeap [2, 1, 3] (by decide)).1⟩

/-! ## C5 -/

/-- C5 (splice): for well-formed lists `A` with node sequence `as` and `B` with node sequence
`bs` over the same heap, sharing no node, `A.append(B)` returns, leaves `A` well-formed with
node sequence `as ++ bs`, and leaves `B` empty: `B.isEmpty()` is true, `B.head()` and
`B.tail()` are null. -/
theorem appendList_splice (s : State) (other : DoublyLinkedList) (as bs : List Node)
    (hl : IsList s.heap s.list as) (ho : IsList s.heap other bs)
    (hdis : ∀ x, x ∈ as → x ∉ bs) :
    ∃ s1 o1, appendList s other = some (s1, o1) ∧ IsList s1.heap s1.list (as ++ bs) ∧
      o1.isEmpty = true ∧ o1.head = none ∧ o1.tail = none := by
  obtain ⟨s1, h1, h2⟩ := isList_appendList hl ho hdis
  exact ⟨s1, _, h1, h2, rfl, rfl, rfl⟩

/-- Witness of C5: `A = [1, 2]`, `B = [3, 4]`. -/
theorem appendList_splice_witness :
    IsList exA.heap exA.list [1, 2] ∧ IsList exA.heap exB [3, 4] ∧
    (∀ x, x ∈ [1, 2] → x ∉ [3, 4]) ∧
    ∃ s1 o1, appendList exA exB = some (s1, o1) ∧ IsList s1.heap s1.list ([1, 2] ++ [3, 4]) ∧
      o1.isEmpty = true ∧ o1.head = none ∧ o1.tail = none :=
  ⟨exA_isList, exB_isList, by decide,
    appendList_splice exA exB [1, 2] [3, 4] exA_isList exB_isList (by decide)⟩

/-! ## C6 -/

/-- C6: for a well-formed list with node sequence `xs` and a member `n`, `size()` before
`remove(n)` returns some `k + 1` and `size()` after it returns `k` (given fuel for `xs.length`
iterations), and following next slots from the new head never reaches `n`. -/
theorem remove_size_member (s : State) (xs : List Node) (n : Node)
    (hl : IsList s.heap s.list xs) (hn : n ∈ xs) :
    (∀ fuel, xs.length ≤ fuel →
      ∃ k, size fuel s = some (k + 1) ∧ size fuel (remove s n) = some k) ∧
    ¬ Member (remove s n) n := by
  have hr := isList_remove hl hn
  have hlen : (xs.erase n).length + 1 = xs.length := by
    rw [List.length_erase_of_mem hn]
    have := List.length_pos_of_mem hn
    omega
  refine ⟨fun fuel hf => ⟨(xs.erase n).length, ?_, ?_⟩, ?_⟩
  · rw [size_isList hl fuel hf, hlen]
  · exact size_isList hr fuel (by omega)
  · rw [member_iff hr, hl.1.mem_erase_iff]
    exact fun h => h.1 rfl

/-- Witness of C6: removing node 1 from `A = [1, 2]`. -/
theorem remove_size_member_witness :
    IsList exA.heap exA.list [1, 2] ∧ 1 ∈ [1, 2] ∧
    (∀ fuel, [1, 2].length ≤ fuel →
      ∃ k, size fuel exA = some (k + 1) ∧ size fuel (remove exA 1) = some k) ∧
    ¬ Member (remove exA 1) 1 :=
  ⟨exA_isList, by decide, remove_size_member exA [1, 2] 1 exA_isList (by decide)⟩

/-! ## C7 -/

/-- C7: after appending `N` pairwise distinct nodes `ns` with `append(node)` to a new list
over any heap, the traversal of `size()` ends within `N` iterations and returns `N`, and the
nodes reached from head along next slots are exactly the appended ones. -/
theorem size_after_appends (h : Heap) (ns : List Node) (hnd : ns.Nodup) :
    (∀ fuel, ns.length ≤ fuel →
      size fuel (ns.foldl append ⟨h, DoublyLinkedList.new⟩) = some ns.length) ∧
    (∀ n, Member (ns.foldl append ⟨h, DoublyLinkedList.new⟩) n ↔ n ∈ ns) := by
  have hl := isList_foldl_append (s := ⟨h, DoublyLinkedList.new⟩) ns (isList_new h) hnd
    (fun _ _ => List.not_mem_nil _)
  rw [List.nil_append] at hl
  exact ⟨fun fuel hf => size_isList hl fuel hf, fun n => member_iff hl n⟩

/-- Witness of C7: nodes 2, 1, 3 over a heap whose slots hold earlier values. -/
theorem size_after_appends_witness :
    [2, 1, 3].Nodup ∧ size 3 ([2, 1, 3].foldl append ⟨exHeap, DoublyLinkedList.new⟩) = some 3 :=
  ⟨by decide, (size_after_appends exHeap [2, 1, 3] (by decide)).1 3 (by decide)⟩

/-! ## C8 -/

/-- C8: `removeHead()` returns the head the list had before the call, which is null exactly
when the list is empty. On an empty list the state is unchanged; on a list with head `x` the
resulting state is that of `remove(x)`; on a well-formed list with node sequence `x :: xs` it
returns `x` and leaves the list well-formed with node sequence `xs`. -/
theorem removeHead_spec (s : State) :
    (removeHead s).1 = head s ∧
    ((removeHead s).1 = none ↔ isEmpty s = true) ∧
    (isEmpty s = true → (removeHead s).2 = s) ∧
    (∀ x, head s = some x → (removeHead s).2 = remove s x) ∧
    (∀ x xs, IsList s.heap s.list (x :: xs) →
      (removeHead s).1 = some x ∧ IsList (removeHead s).2.heap (removeHead s).2.list xs) := by
  refine ⟨?_, ?_, ?_, ?_, ?_⟩
  · unfold removeHead; cases head s <;> rfl
  · unfold removeHead isEmpty DoublyLinkedList.isEmpty head DoublyLinkedList.head
    cases s.list.m_head <;> simp
  · unfold removeHead isEmpty DoublyLinkedList.isEmpty head DoublyLinkedList.head
    cases s.list.m_head <;> simp
  · intro x hx
    unfold removeHead
    rw [hx]
  · intro x xs hl
    rw [removeHead_cons hl]
    exact ⟨rfl, isList_remove_head hl⟩

/-- Witness of C8: `removeHead()` on `A = [1, 2]` and on the empty list. -/
theorem removeHead_spec_witness :
    isEmpty ⟨exHeap, DoublyLinkedList.new⟩ = true ∧
    (removeHead ⟨exHeap, DoublyLinkedList.new⟩).2 = ⟨exHeap, DoublyLinkedList.new⟩ ∧
    head exA = some 1 ∧ (removeHead exA).2 = remove exA 1 ∧
    IsList exA.heap exA.list (1 :: [2]) ∧
    (removeHead exA).1 = some 1 ∧ IsList (removeHead exA).2.heap (removeHead exA).2.list [2] :=
  ⟨rfl, (removeHead_spec ⟨exHeap, DoublyLinkedList.new⟩).2.2.1 rfl,
    rfl, (removeHead_spec exA).2.2.2.1 1 rfl,
    exA_isList, (removeHead_spec exA).2.2.2.2 1 [2] exA_isList⟩

/-! ## C9 -/

/-- C9, as stated, fails: pushing the node that is the current head of the one-element list
`[1]` leaves the prev slot of the old head null, not pointing at the pushed node. -/
theorem pushPost_counterexample :
    ¬ PushPost exOne 1 ∧ head exOne = some 1 ∧ (push exOne 1).heap.prev 1 = none :=
  ⟨fun h => absurd (h.2.1 1 rfl).1 (by decide), rfl, rfl⟩

/-- C9, amended: for every state and every node that is not the current head of the list,
`push(node)` has the stated postcondition: on an empty list head and tail become `node` and
both slots of `node` are null; on a non-empty list the prev slot of the old head is `node`,
the next slot of `node` is the old head, the prev slot of `node` is null, head is `node` and
tail is unchanged; no slot of any element other than `node` and the old head is written. -/
theorem pushPost_of_ne_head (s : State) (node : Node) (hne : head s ≠ some node) :
    PushPost s node := by
  obtain ⟨⟨hp, hx⟩, ⟨hd, tl⟩⟩ := s
  cases hd with
  | none =>
    refine ⟨fun _ => ⟨rfl, rfl, ?_, ?_⟩, fun hd h => ?_, fun x hxn _ => ?_⟩
    · simp [push]
    · simp [push]
    · exact absurd h (by simp [head, DoublyLinkedList.head])
    · simp [push, hxn]
  | some hd =>
    have hdn : hd ≠ node := fun e => hne (by rw [e]; rfl)
    refine ⟨fun h => ?_, fun hd1 h => ?_, fun x hxn hxh => ?_⟩
    · exact absurd h (by simp [head, DoublyLinkedList.head])
    · have e : hd = hd1 := Option.some.inj h
      subst e
      refine ⟨?_, ?_, ?_, rfl, rfl⟩
      · simp [push, hdn]
      · simp [push]
      · simp [push]
    · have hxd : x ≠ hd := fun e => hxh (by rw [e]; rfl)
      simp [push, hxn, hxd]

/-- Witness of amended C9: pushing the fresh node 5 onto `A = [1, 2]`. -/
theorem pushPost_of_ne_head_witness : head exA ≠ some 5 ∧ PushPost exA 5 :=
  ⟨by decide, pushPost_of_ne_head exA 5 (by decide)⟩

/-! ## C10 -/

/-- C10: `append(node)` is the mirror image of `push(node)`: for every state `s` and node `n`,
mirroring the state after `append(n)` gives the state after `push(n)` on the mirrored `s`. -/
theorem mirror_append (s : State) (n : Node) : mirror (append s n) = push (mirror s) n := by
  obtain ⟨⟨hp, hx⟩, ⟨hd, tl⟩⟩ := s
  cases tl <;> rfl

/-! ## C11 -/

/-- C11: on a list whose only node is `n` (head and tail are `n`, both slots of `n` null),
`remove(n)` yields the empty list: head and tail are null and `isEmpty()` is true. -/
theorem remove_sole (s : State) (n : Node) (_hh : head s = some n) (_ht : tail s = some n)
    (hp : s.heap.prev n = none) (hx : s.heap.next n = none) :
    head (remove s n) = none ∧ tail (remove s n) = none ∧ isEmpty (remove s n) = true := by
  have e : remove s n = ⟨s.heap, ⟨none, none⟩⟩ := by
    simp only [remove, removeFront, removeBack, hp, hx]
  rw [e]
  exact ⟨rfl, rfl, rfl⟩

/-- Witness of C11: the list `[1]` over the heap whose slots are all null. -/
theorem remove_sole_witness :
    head exOne = some 1 ∧ tail exOne = some 1 ∧ exOne.heap.prev 1 = none ∧
    exOne.heap.next 1 = none ∧
    head (remove exOne 1) = none ∧ tail (remove exOne 1) = none ∧
    isEmpty (remove exOne 1) = true :=
  ⟨rfl, rfl, rfl, rfl, remove_sole exOne 1 rfl rfl rfl rfl⟩

/-! ## C12 -/

/-- C12: for every state and node, `remove(node)` leaves both slots of `node` as they were.
The next slot of an element `x` after the call is the old next slot of `node` when `x` is the
predecessor of `node` (the old prev slot of `node`) and is unchanged otherwise; the prev slot
of `x` is the old prev slot of `node` when `x` is the successor of `node` and is unchanged
otherwise. -/
theorem remove_frame (s : State) (node : Node) :
    (remove s node).heap.prev node = s.heap.prev node ∧
    (remove s node).heap.next node = s.heap.next node ∧
    (∀ x, (remove s node).heap.next x =
      if s.heap.prev node = some x then s.heap.next node else s.heap.next x) ∧
    (∀ x, (remove s node).heap.prev x =
      if s.heap.next node = some x then s.heap.prev node else s.heap.prev x) := by
  refine ⟨?_, ?_, remove_next s node, remove_prev s node⟩
  · rw [remove_prev]; split <;> rfl
  · rw [remove_next]; split <;> rfl

/-! ## C13 -/

/-- C13: for every state, after `clear()` head and tail are null, the list is empty and the
heap (every prev and next slot) is what it was. On a list that is already empty (head and tail
null) `clear()` leaves the whole state unchanged, and `clear()` twice equals `clear()` once. -/
theorem clear_frame (s : State) :
    head (clear s) = none ∧ tail (clear s) = none ∧ isEmpty (clear s) = true ∧
    (clear s).heap = s.heap ∧
    (∀ x, (clear s).heap.prev x = s.heap.prev x ∧ (clear s).heap.next x = s.heap.next x) ∧
    (head s = none → tail s = none → clear s = s) ∧
    (isEmpty s = true → WellFormed s.heap s.list → clear s = s) ∧
    clear (clear s) = clear s := by
  have key : head s = none → tail s = none → clear s = s := by
    intro hh ht
    obtain ⟨h, ⟨hd, tl⟩⟩ := s
    simp only [head, tail, DoublyLinkedList.head, DoublyLinkedList.tail] at hh ht
    subst hh ht
    rfl
  refine ⟨rfl, rfl, rfl, rfl, fun _ => ⟨rfl, rfl⟩, key, ?_, rfl⟩
  rintro he ⟨xs, hl⟩
  have hh : s.list.m_head = none := by
    simpa [isEmpty, DoublyLinkedList.isEmpty] using he
  have hnil : xs = [] := by
    have := hl.2.1
    rw [hh] at this
    exact List.head?_eq_none_iff.1 this.symm
  subst hnil
  exact key hh ((isList_nil_iff _ _).1 hl).2

/-- Witness of C13: `clear()` on the new list over `exHeap`. -/
theorem clear_frame_witness :
    head ⟨exHeap, DoublyLinkedList.new⟩ = none ∧ tail ⟨exHeap, DoublyLinkedList.new⟩ = none ∧
    clear ⟨exHeap, DoublyLinkedList.new⟩ = ⟨exHeap, DoublyLinkedList.new⟩ :=
  ⟨rfl, rfl, (clear_frame ⟨exHeap, DoublyLinkedList.new⟩).2.2.2.2.2.1 rfl rfl⟩

/-! ## C14 -/

/-- C14: `append(otherList)` with an `otherList` whose head is null returns at once: this
list, `otherList` and the heap are all unchanged, in the release and in the debug build. -/
theorem appendList_empty_other (s : State) (other : DoublyLinkedList)
    (ho : other.head = none) :
    appendList s other = some (s, other) ∧ appendListDebug s other = some (s, other) := by
  simp only [appendList, appendListDebug, ho, and_self]

/-- Witness of C14: `A = [1, 2]` and an empty `otherList`. -/
theorem appendList_empty_other_witness :
    DoublyLinkedList.new.head = none ∧
    appendList exA DoublyLinkedList.new = some (exA, DoublyLinkedList.new) ∧
    appendListDebug exA DoublyLinkedList.new = some (exA, DoublyLinkedList.new) :=
  ⟨rfl, appendList_empty_other exA DoublyLinkedList.new rfl⟩

/-! ## C15 -/

/-- C15, as stated, fails: node 6 is the middle node of the well-formed list `C = [5, 6, 7]`
and is not a member of the well-formed list `L = [1, 2]`, yet `L.remove(6)` in the debug build
passes every assertion and runs to the end. -/
theorem removeDebug_counterexample :
    IsList exL.heap exL.list [1, 2] ∧ IsList exL.heap exC [5, 6, 7] ∧ 6 ∉ [1, 2] ∧
    (removeDebug exL 6).isSome = true :=
  ⟨(isList_iff_listSeg _ _ _).2 (by decide), (isList_iff_listSeg _ _ _).2 (by decide),
    by decide, by decide⟩

/-- C15, amended: for a well-formed list `L` and a node `n` that is not a member of `L`,
`L.remove(n)` in the debug build fails one of the assertions of `remove` exactly when the prev
slot or the next slot of `n` is null; a non-member whose two slots are both set passes all of
them. -/
theorem removeDebug_nonmember (s : State) (xs : List Node) (n : Node)
    (hl : IsList s.heap s.list xs) (hn : n ∉ xs) :
    removeDebug s n = none ↔ (s.heap.prev n = none ∨ s.heap.next n = none) := by
  have h1 := ne_head_of_not_mem hl hn
  have h2 := ne_tail_of_not_mem hl hn
  rw [removeDebug_eq]
  cases hp : s.heap.prev n <;> cases hx : s.heap.next n <;> simp [h1, h2]

/-- Witness of amended C15: node 5, the head of `C = [5, 6, 7]`, removed from `L = [1, 2]`. -/
theorem removeDebug_nonmember_witness :
    IsList exL.heap exL.list [1, 2] ∧ 5 ∉ [1, 2] ∧
    (removeDebug exL 5 = none ↔ (exL.heap.prev 5 = none ∨ exL.heap.next 5 = none)) :=
  ⟨(isList_iff_listSeg _ _ _).2 (by decide), by decide,
    removeDebug_nonmember exL [1, 2] 5 ((isList_iff_listSeg _ _ _).2 (by decide)) (by decide)⟩

/-! ## C16 -/

/-- C16, as stated, fails: there is no well-formed list and node outside it, whatever the
slots of the node hold, for which `push(n)` or `append(n)` yields a list that is not
well-formed. -/
theorem stale_reinsert_counterexample :
    ¬ ∃ (s : State) (xs : List Node) (n : Node), IsList s.heap s.list xs ∧ n ∉ xs ∧
      (¬ WellFormed (push s n).heap (push s n).list ∨
        ¬ WellFormed (append s n).heap (append s n).list) := by
  rintro ⟨s, xs, n, hl, hn, h | h⟩
  · exact h ⟨_, isList_push hl hn⟩
  · exact h ⟨_, isList_append hl hn⟩

/-- C16, amended: values left in the slots of a node cannot corrupt the chain it is inserted
into. For a well-formed list with node sequence `xs`, a node `n` outside it and any values
`p`, `q` held by the prev and next slot of `n`, `push(n)` yields the well-formed list
`n :: xs` and `append(n)` the well-formed list `xs ++ [n]`, and the resulting states do not
depend on `p` and `q`: both functions write both slots of `n`. -/
theorem reinsert_stale (s : State) (xs : List Node) (n : Node) (p q : Ptr)
    (hl : IsList s.heap s.list xs) (hn : n ∉ xs) :
    push ⟨(s.heap.setPrev n p).setNext n q, s.list⟩ n = push s n ∧
    append ⟨(s.heap.setPrev n p).setNext n q, s.list⟩ n = append s n ∧
    IsList (push ⟨(s.heap.setPrev n p).setNext n q, s.list⟩ n).heap
      (push ⟨(s.heap.setPrev n p).setNext n q, s.list⟩ n).list (n :: xs) ∧
    IsList (append ⟨(s.heap.setPrev n p).setNext n q, s.list⟩ n).heap
      (append ⟨(s.heap.setPrev n p).setNext n q, s.list⟩ n).list (xs ++ [n]) := by
  have e1 : push ⟨(s.heap.setPrev n p).setNext n q, s.list⟩ n = push s n := by
    obtain ⟨⟨hp, hx⟩, ⟨hd, tl⟩⟩ := s
    cases hd <;>
      simp only [push, Heap.setPrev, Heap.setNext, State.mk.injEq, Heap.mk.injEq, and_true] <;>
      constructor <;> funext x <;> by_cases hxn : x = n <;> simp [hxn]
  have e2 : append ⟨(s.heap.setPrev n p).setNext n q, s.list⟩ n = append s n := by
    obtain ⟨⟨hp, hx⟩, ⟨hd, tl⟩⟩ := s
    cases tl <;>
      simp only [append, Heap.setPrev, Heap.setNext, State.mk.injEq, Heap.mk.injEq, and_true] <;>
      constructor <;> funext x <;> by_cases hxn : x = n <;> simp [hxn]
  rw [e1, e2]
  exact ⟨rfl, rfl, isList_push hl hn, isList_append hl hn⟩

/-- Witness of amended C16: after `A = [1, 2]` was cleared node 1 still has node 2 in its next
slot; it is inserted into `B = [3, 4]`. -/
theorem reinsert_stale_witness :
    IsList exHeap exB [3, 4] ∧ 1 ∉ [3, 4] ∧
    IsList (push ⟨(exHeap.setPrev 1 none).setNext 1 (some 2), exB⟩ 1).heap
      (push ⟨(exHeap.setPrev 1 none).setNext 1 (some 2), exB⟩ 1).list (1 :: [3, 4]) ∧
    IsList (append ⟨(exHeap.setPrev 1 none).setNext 1 (some 2), exB⟩ 1).heap
      (append ⟨(exHeap.setPrev 1 none).setNext 1 (some 2), exB⟩ 1).list ([3, 4] ++ [1]) :=
  ⟨exB_isList, by decide,
    (reinsert_stale ⟨exHeap, exB⟩ [3, 4] 1 none (some 2) exB_isList (by decide)).2.2⟩

/-! ## C17 -/

/-- C17: splice writes only the seam. For well-formed lists `A` (sequence `as`, last node `a`)
and `B` (sequence `bs`, first node `b`), both non-empty, `A.append(B)` returns and afterwards
the next slot of `a` holds `b`, the prev slot of `b` holds `a`, and every other slot of every
element is unchanged. When `A` is empty and `B` is not, the heap is unchanged and head and
tail of `A` are the old head and tail of `B`. -/
theorem appendList_seam (s : State) (other : DoublyLinkedList) (as bs : List Node)
    (hl : IsList s.heap s.list as) (ho : IsList s.heap other bs)
    (hdis : ∀ x, x ∈ as → x ∉ bs) :
    (∀ a b, as.getLast? = some a → bs.head? = some b →
      ∃ s1 o1, appendList s other = some (s1, o1) ∧
        (∀ x, s1.heap.next x = if x = a then some b else s.heap.next x) ∧
        (∀ x, s1.heap.prev x = if x = b then some a else s.heap.prev x)) ∧
    (as = [] → bs ≠ [] →
      ∃ s1 o1, appendList s other = some (s1, o1) ∧ s1.heap = s.heap ∧
        head s1 = other.head ∧ tail s1 = other.tail) := by
  obtain ⟨s1, h1, -⟩ := isList_appendList hl ho hdis
  have hh := hl.2.1
  have ht := hl.2.2.1
  have oh := ho.2.1
  refine ⟨fun a b ha hb => ?_, fun ha hb => ?_⟩
  · rw [ha] at ht
    rw [hb] at oh
    have hh2 : ∃ y, s.list.m_head = some y := by
      cases as with
      | nil => simp at ha
      | cons y ys => exact ⟨y, hh⟩
    obtain ⟨y, hy⟩ := hh2
    have e : appendList s other =
        some (⟨(s.heap.setNext a (some b)).setPrev b (some a),
          ⟨s.list.m_head, other.m_tail⟩⟩, DoublyLinkedList.new) := by
      simp only [appendList, DoublyLinkedList.head, oh, head, hy, ht]
      rfl
    exact ⟨_, _, e, fun x => by simp, fun x => by simp⟩
  · subst ha
    simp only [List.head?_nil] at hh
    have oh2 : ∃ b, other.m_head = some b := by
      cases bs with
      | nil => exact absurd rfl hb
      | cons b bs1 => exact ⟨b, oh⟩
    obtain ⟨b, hb2⟩ := oh2
    have e : appendList s other =
        some (⟨s.heap, ⟨other.m_head, other.m_tail⟩⟩, DoublyLinkedList.new) := by
      simp only [appendList, DoublyLinkedList.head, hb2, head, hh]
      rfl
    exact ⟨_, _, e, rfl, rfl, rfl⟩

/-- Witness of C17: `A = [1, 2]` spliced with `B = [3, 4]`, and the empty list spliced with
`B`. -/
theorem appendList_seam_witness :
    IsList exA.heap exA.list [1, 2] ∧ IsList exA.heap exB [3, 4] ∧
    (∃ s1 o1, appendList exA exB = some (s1, o1) ∧
      (∀ x, s1.heap.next x = if x = 2 then some 3 else exA.heap.next x) ∧
      (∀ x, s1.heap.prev x = if x = 3 then some 2 else exA.heap.prev x)) ∧
    (∃ s1 o1, appendList ⟨exHeap, DoublyLinkedList.new⟩ exB = some (s1, o1) ∧
      s1.heap = exHeap ∧ head s1 = exB.head ∧ tail s1 = exB.tail) :=
  ⟨exA_isList, exB_isList,
    (appendList_seam exA exB [1, 2] [3, 4] exA_isList exB_isList (by decide)).1 2 3 rfl rfl,
    (appendList_seam ⟨exHeap, DoublyLinkedList.new⟩ exB [] [3, 4] (isList_new exHeap)
      exB_isList (by decide)).2 rfl (by decide)⟩

/-! ## C18 -/

/-- C18: when the caller obligations hold no assertion fails. For a well-formed list with node
sequence `xs`, the debug build of `push(n)` and `append(n)` with `n` not in `xs`, of
`remove(n)` with `n` in `xs`, of `removeHead()`, and of `append(other)` with `other`
well-formed over the same heap and sharing no node with `xs`, passes every assertion it
executes and returns the result of the release build. -/
theorem asserts_hold (s : State) (xs : List Node) (hl : IsList s.heap s.list xs) :
    (∀ n, n ∉ xs → pushDebug s n = some (push s n)) ∧
    (∀ n, n ∉ xs → appendDebug s n = some (append s n)) ∧
    (∀ n, n ∈ xs → removeDebug s n = some (remove s n)) ∧
    removeHeadDebug s = some (removeHead s) ∧
    (∀ other ys, IsList s.heap other ys → (∀ x, x ∈ xs → x ∉ ys) →
      ∃ r, appendListDebug s other = some r ∧ appendList s other = some r) := by
  have hrem : ∀ n, n ∈ xs → removeDebug s n = some (remove s n) := by
    intro n hn
    rw [removeDebug_eq, if_pos (asserts_of_mem hl hn)]
  refine ⟨fun n _ => ?_, fun n _ => ?_, hrem, ?_, ?_⟩
  · rw [pushDebug_eq, if_pos (head_tail_of_isList hl)]
  · rw [appendDebug_eq, if_pos (head_tail_of_isList hl)]
  · cases xs with
    | nil =>
      have hh : s.list.m_head = none := hl.2.1
      simp only [removeHeadDebug, removeHead, head, DoublyLinkedList.head, hh]
      rfl
    | cons x xs =>
      have hh : s.list.m_head = some x := hl.2.1
      simp only [removeHeadDebug, removeHead, head, DoublyLinkedList.head, hh]
      rw [hrem x (List.mem_cons_self x xs)]
      rfl
  · intro other ys ho hdis
    obtain ⟨s1, h1, -⟩ := isList_appendList hl ho hdis
    exact ⟨_, (appendListDebug_eq hl ho).trans h1, h1⟩

/-- Witness of C18 on `A = [1, 2]`, `B = [3, 4]`, with the fresh node 5 and the member 2. -/
theorem asserts_hold_witness :
    IsList exA.heap exA.list [1, 2] ∧ 5 ∉ [1, 2] ∧ 2 ∈ [1, 2] ∧
    IsList exA.heap exB [3, 4] ∧ (∀ x, x ∈ [1, 2] → x ∉ [3, 4]) ∧
    pushDebug exA 5 = some (push exA 5) ∧
    appendDebug exA 5 = some (append exA 5) ∧
    removeDebug exA 2 = some (remove exA 2) ∧
    removeHeadDebug exA = some (removeHead exA) ∧
    (∃ r, appendListDebug exA exB = some r ∧ appendList exA exB = some r) :=
  ⟨exA_isList, by decide, by decide, exB_isList, by decide,
    (asserts_hold exA [1, 2] exA_isList).1 5 (by decide),
    (asserts_hold exA [1, 2] exA_isList).2.1 5 (by decide),
    (asserts_hold exA [1, 2] exA_isList).2.2.1 2 (by decide),
    (asserts_hold exA [1, 2] exA_isList).2.2.2.1,
    (asserts_hold exA [1, 2] exA_isList).2.2.2.2 exB [3, 4] exB_isList (by decide)⟩

/-! ## C19 -/

/-- C19: `remove` keeps the order of the remaining nodes. For a well-formed list with node
sequence `xs` and a member `n`, the list after `remove(n)` is well-formed with node sequence
`xs.erase n`, which is `xs` without `n` and with every other node at its place in the order;
following next slots from the new head visits that sequence in order, and following prev slots
from the new tail visits it in reverse order. -/
theorem remove_keeps_order (s : State) (xs : List Node) (n : Node)
    (hl : IsList s.heap s.list xs) (hn : n ∈ xs) :
    IsList (remove s n).heap (remove s n).list (xs.erase n) ∧
    xs.erase n = xs.filter (fun x => x != n) ∧
    (∀ k, walk (remove s n).heap k (head (remove s n)) = (xs.erase n)[k]?) ∧
    (∀ k, walkBack (remove s n).heap k (tail (remove s n)) = (xs.erase n).reverse[k]?) := by
  have hr := isList_remove hl hn
  obtain ⟨_, hh, ht, hs⟩ := (isList_iff_listSeg _ _ _).1 hr
  refine ⟨hr, hl.1.erase_eq_filter n, fun k => ?_, fun k => ?_⟩
  · show walk _ k (remove s n).list.m_head = _
    rw [hh, ← firstOr_none]
    exact walk_seg hs k
  · show walkBack _ k (remove s n).list.m_tail = _
    rw [ht, ← lastOr_none]
    exact walkBack_seg hs k

/-- Witness of C19: removing the middle node 6 of `C = [5, 6, 7]`. -/
theorem remove_keeps_order_witness :
    IsList exMid exC [5, 6, 7] ∧ 6 ∈ [5, 6, 7] ∧
    IsList (remove ⟨exMid, exC⟩ 6).heap (remove ⟨exMid, exC⟩ 6).list [5, 7] ∧
    walk (remove ⟨exMid, exC⟩ 6).heap 1 (head (remove ⟨exMid, exC⟩ 6)) = some 7 ∧
    walkBack (remove ⟨exMid, exC⟩ 6).heap 1 (tail (remove ⟨exMid, exC⟩ 6)) = some 5 :=
  have hl : IsList exMid exC [5, 6, 7] := (isList_iff_listSeg _ _ _).2 (by decide)
  ⟨hl, by decide, (remove_keeps_order ⟨exMid, exC⟩ [5, 6, 7] 6 hl (by decide)).1,
    (remove_keeps_order ⟨exMid, exC⟩ [5, 6, 7] 6 hl (by decide)).2.2.1 1,
    (remove_keeps_order ⟨exMid, exC⟩ [5, 6, 7] 6 hl (by decide)).2.2.2 1⟩

/-! ## C20 -/

/-- C20: insertion followed by removal of the same node is a round trip. For a well-formed
list and a node `n` not in it, `push(n)` followed by `remove(n)`, and `append(n)` followed by
`remove(n)`, restore head and tail of the list and both slots of every element other than
`n` to their values before the insertion. -/
theorem insert_remove_roundtrip (s : State) (xs : List Node) (n : Node)
    (hl : IsList s.heap s.list xs) (hn : n ∉ xs) :
    (head (remove (push s n) n) = head s ∧ tail (remove (push s n) n) = tail s ∧
      ∀ x, x ≠ n → (remove (push s n) n).heap.prev x = s.heap.prev x ∧
        (remove (push s n) n).heap.next x = s.heap.next x) ∧
    (head (remove (append s n) n) = head s ∧ tail (remove (append s n) n) = tail s ∧
      ∀ x, x ≠ n → (remove (append s n) n).heap.prev x = s.heap.prev x ∧
        (remove (append s n) n).heap.next x = s.heap.next x) := by
  have hh := hl.2.1
  have ht := hl.2.2.1
  have hprev := hl.2.2.2.2.1
  have hnext := hl.2.2.2.2.2
  have hnh := ne_head_of_not_mem hl hn
  have hnt := ne_tail_of_not_mem hl hn
  have hiff := head_tail_of_isList hl
  refine ⟨?_, ?_⟩
  · cases hd : s.list.m_head with
    | none =>
      have htl : s.list.m_tail = none := by
        rw [hd] at hiff
        simpa using hiff.symm
      have hp : (push s n).heap.prev n = none := by simp [push, hd]
      have hx : (push s n).heap.next n = none := by simp [push, hd]
      refine ⟨?_, ?_, fun x hxn => ⟨?_, ?_⟩⟩
      · rw [remove_head, hp, hx]; simp [head, DoublyLinkedList.head, hd]
      · rw [remove_tail, hp, hx]; simp [tail, DoublyLinkedList.tail, htl]
      · rw [remove_prev, hx]; simp [push, hd, hxn]
      · rw [remove_next, hp]; simp [push, hd, hxn]
    | some y =>
      have hyn : y ≠ n := fun e => hnh (by rw [hd, e])
      have hpy : s.heap.prev y = none := hprev y (by rw [← hh, hd]; rfl)
      have hp : (push s n).heap.prev n = none := by simp [push, hd]
      have hx : (push s n).heap.next n = some y := by simp [push, hd]
      refine ⟨?_, ?_, fun x hxn => ⟨?_, ?_⟩⟩
      · rw [remove_head, hp, hx]; simp [head, DoublyLinkedList.head, hd]
      · rw [remove_tail, hx]; simp [tail, DoublyLinkedList.tail, push, hd]
      · rw [remove_prev, hx, hp]
        by_cases hxy : x = y
        · subst hxy; simp [hpy]
        · have : ¬ some y = some x := fun e => hxy (Option.some.inj e).symm
          simp [this, push, hd, hxn, hxy]
      · rw [remove_next, hp]; simp [push, hd, hxn]
  · cases tl : s.list.m_tail with
    | none =>
      have hhd : s.list.m_head = none := by
        rw [tl] at hiff
        simpa using hiff
      have hp : (append s n).heap.prev n = none := by simp [append, tl]
      have hx : (append s n).heap.next n = none := by simp [append, tl]
      refine ⟨?_, ?_, fun x hxn => ⟨?_, ?_⟩⟩
      · rw [remove_head, hp, hx]; simp [head, DoublyLinkedList.head, hhd]
      · rw [remove_tail, hp, hx]; simp [tail, DoublyLinkedList.tail, tl]
      · rw [remove_prev, hx]; simp [append, tl, hxn]
      · rw [remove_next, hp]; simp [append, tl, hxn]
    | some y =>
      have hyn : y ≠ n := fun e => hnt (by rw [tl, e])
      have hxy : s.heap.next y = none := hnext y (by rw [← ht, tl]; rfl)
      have hp : (append s n).heap.prev n = some y := by simp [append, tl]
      have hx : (append s n).heap.next n = none := by simp [append, tl]
      refine ⟨?_, ?_, fun x hxn => ⟨?_, ?_⟩⟩
      · rw [remove_head, hp]; simp [head, DoublyLinkedList.head, append, tl]
      · rw [remove_tail, hx, hp]; simp [tail, DoublyLinkedList.tail, tl]
      · rw [remove_prev, hx]; simp [append, tl, hxn]
      · rw [remove_next, hp, hx]
        by_cases hxe : x = y
        · subst hxe; simp [hxy]
        · have : ¬ some y = some x := fun e => hxe (Option.some.inj e).symm
          simp [this, append, tl, hxn, hxe]

/-- Witness of C20: node 5 pushed onto, or appended to, `A = [1, 2]` and removed again. -/
theorem insert_remove_roundtrip_witness :
    IsList exA.heap exA.list [1, 2] ∧ 5 ∉ [1, 2] ∧
    head (remove (push exA 5) 5) = head exA ∧ tail (remove (push exA 5) 5) = tail exA ∧
    head (remove (append exA 5) 5) = head exA ∧ tail (remove (append exA 5) 5) = tail exA :=
  ⟨exA_isList, by decide,
    (insert_remove_roundtrip exA [1, 2] 5 exA_isList (by decide)).1.1,
    (insert_remove_roundtrip exA [1, 2] 5 exA_isList (by decide)).1.2.1,
    (insert_remove_roundtrip exA [1, 2] 5 exA_isList (by decide)).2.1,
    (insert_remove_roundtrip exA [1, 2] 5 exA_isList (by decide)).2.2.1⟩

end WTF
